import Mathlib

/-!
Verification of the `TaskScheduler` class of
`src/generate_template_prototype3.py` (a spaced-repetition task scheduler).

Embedding conventions:
* A calendar date is its proleptic-Gregorian ordinal (Python's
  `date.toordinal`), an `Int`; `start_date + timedelta(days=i)` is `start + i`.
* The insertion-ordered Python `dict` / `defaultdict(list)` are association
  lists; updating an existing key rewrites its value in place, a fresh key is
  appended at the end, exactly as CPython dicts behave.
* The "today" read by `datetime.date.today()` is passed as an explicit
  parameter, so every operation is a pure function of the scheduler state.
* `export_to_csv` returns the list of data rows it writes (the header row and
  file I/O are presentation).
-/

namespace Sched

/-- A calendar date as its proleptic-Gregorian ordinal (Python `toordinal`). -/
abbrev Date := Int

/-- The value stored in `self.tasks`: `{'intervals': [...], 'start_date': d}`. -/
structure TaskInfo where
  intervals : List Int
  start_date : Date
  deriving DecidableEq, Repr

/-- The state of a `TaskScheduler` object: the `tasks` dict and the
`schedule` defaultdict, both as insertion-ordered association lists. -/
structure TaskScheduler where
  tasks : List (String × TaskInfo)
  schedule : List (Date × List String)
  deriving DecidableEq, Repr

/-- `TaskScheduler.__init__`: both dicts empty. -/
def emptyScheduler : TaskScheduler := ⟨[], []⟩

/-- `self.tasks[task_name] = info` on an insertion-ordered dict: overwrite in
place if the key is present, else append at the end. -/
def dictSet : List (String × TaskInfo) → String → TaskInfo → List (String × TaskInfo)
  | [], k, v => [(k, v)]
  | (k', v') :: rest, k, v =>
    if k' = k then (k, v) :: rest else (k', v') :: dictSet rest k v

/-- `self.tasks.get(name)`: first (unique, for dict-built lists) binding. -/
def dictGet? : List (String × TaskInfo) → String → Option TaskInfo
  | [], _ => none
  | (k, v) :: rest, key => if k = key then some v else dictGet? rest key

/-- `self.schedule[review_date].append(task_name)` on a `defaultdict(list)`:
append to the list of an existing key, else create the key (at the end of the
insertion order) with the one-element list. -/
def scheduleAppend : List (Date × List String) → Date → String → List (Date × List String)
  | [], d, name => [(d, [name])]
  | (k, v) :: rest, d, name =>
    if k = d then (k, v ++ [name]) :: rest
    else (k, v) :: scheduleAppend rest d name

/-- `self.schedule.get(date, [])`. -/
def listAt : List (Date × List String) → Date → List String
  | [], _ => []
  | (k, v) :: rest, d => if k = d then v else listAt rest d

/-- The `for interval in intervals:` loop of `add_task`. -/
def scheduleAll (name : String) (start : Date) :
    List Int → List (Date × List String) → List (Date × List String)
  | [], s => s
  | i :: rest, s => scheduleAll name start rest (scheduleAppend s (start + i) name)

/-- `TaskScheduler.add_task(task_name, intervals, start_date)` (the
`start_date=None` default is resolved by the caller to today's date). -/
def add_task (sch : TaskScheduler) (task_name : String) (intervals : List Int)
    (start_date : Date) : TaskScheduler :=
  { tasks := dictSet sch.tasks task_name ⟨intervals, start_date⟩
    schedule := scheduleAll task_name start_date intervals sch.schedule }

/-- The `for _ in range(repetitions): intervals.append(current_interval);
current_interval += interval` loop, started at `current_interval = cur`. -/
def repIntervals : Nat → Int → Int → List Int
  | 0, _, _ => []
  | n + 1, cur, interval => cur :: repIntervals n (cur + interval) interval

/-- `TaskScheduler.add_task_with_repetitions(task_name, interval, repetitions,
start_date)`. -/
def add_task_with_repetitions (sch : TaskScheduler) (task_name : String)
    (interval : Int) (repetitions : Nat) (start_date : Date) : TaskScheduler :=
  add_task sch task_name (repIntervals repetitions 0 interval) start_date

/-- The inner `for interval in task_info['intervals']:` loop of
`generate_schedule`, keeping only dates with `a <= date <= b`. -/
def scheduleAllIn (name : String) (start a b : Date) :
    List Int → List (Date × List String) → List (Date × List String)
  | [], s => s
  | i :: rest, s =>
    if a ≤ start + i ∧ start + i ≤ b then
      scheduleAllIn name start a b rest (scheduleAppend s (start + i) name)
    else
      scheduleAllIn name start a b rest s

/-- The outer `for task_name, task_info in self.tasks.items():` loop of
`generate_schedule`. -/
def genLoop (a b : Date) :
    List (String × TaskInfo) → List (Date × List String) → List (Date × List String)
  | [], s => s
  | (name, info) :: rest, s =>
    genLoop a b rest (scheduleAllIn name info.start_date a b info.intervals s)

/-- `TaskScheduler.generate_schedule(days)` with `today` passed explicitly:
clears `self.schedule` and repopulates it from `self.tasks` within
`[today, today + days]`. -/
def generate_schedule (sch : TaskScheduler) (today : Date) (days : Int) :
    TaskScheduler :=
  { tasks := sch.tasks
    schedule := genLoop today (today + days) sch.tasks [] }

/-- `TaskScheduler.get_tasks_for_date(date)`: `self.schedule.get(date, [])`. -/
def get_tasks_for_date (sch : TaskScheduler) (date : Date) : List String :=
  listAt sch.schedule date

/-- `calendar.day_name` (full English weekday names, Monday first). -/
def dayNames : List String :=
  ["Monday", "Tuesday", "Wednesday", "Thursday", "Friday", "Saturday", "Sunday"]

/-- `date.weekday()`: Monday = 0. Ordinal 1 (0001-01-01) is a Monday. -/
def weekday (d : Date) : Nat := ((d - 1) % 7).toNat

/-- `_DAYS_IN_MONTH` of CPython's datetime (slot 0 unused). -/
def daysInMonth : List Nat := [0, 31, 28, 31, 30, 31, 30, 31, 31, 30, 31, 30, 31]

/-- `_DAYS_BEFORE_MONTH` of CPython's datetime (slot 0 unused). -/
def daysBeforeMonth : List Nat :=
  [0, 0, 31, 59, 90, 120, 151, 181, 212, 243, 273, 304, 334]

/-- CPython's `_ord2ymd`: Gregorian ordinal (≥ 1) to (year, month, day). -/
def ord2ymd (N : Nat) : Nat × Nat × Nat :=
  let n := N - 1
  let n400 := n / 146097
  let n := n % 146097
  let year := n400 * 400 + 1
  let n100 := n / 36524
  let n := n % 36524
  let n4 := n / 1461
  let n := n % 1461
  let n1 := n / 365
  let n := n % 365
  let year := year + n100 * 100 + n4 * 4 + n1
  if n1 = 4 ∨ n100 = 4 then
    (year - 1, 12, 31)
  else
    let leap : Bool := n1 = 3 ∧ (n4 ≠ 24 ∨ n100 = 3)
    let month := (n + 50) / 32
    let preceding := daysBeforeMonth.getD month 0 + (if month > 2 ∧ leap then 1 else 0)
    if n < preceding then
      let month' := month - 1
      let preceding' :=
        preceding - (daysInMonth.getD month' 0 + (if month' = 2 ∧ leap then 1 else 0))
      (year, month', n - preceding' + 1)
    else
      (year, month, n - preceding + 1)

/-- Zero-pad a number to two digits. -/
def pad2 (n : Nat) : String := if n < 10 then "0" ++ toString n else toString n

/-- Zero-pad a number to four digits. -/
def pad4 (n : Nat) : String :=
  if n < 10 then "000" ++ toString n
  else if n < 100 then "00" ++ toString n
  else if n < 1000 then "0" ++ toString n
  else toString n

/-- `date.strftime('%Y-%m-%d')`: ISO `YYYY-MM-DD`. -/
def isoFormat (d : Date) : String :=
  let ymd := ord2ymd d.toNat
  pad4 ymd.1 ++ "-" ++ pad2 ymd.2.1 ++ "-" ++ pad2 ymd.2.2

/-- One data row written by `export_to_csv` (under the `Date, Day, Tasks`
header). -/
structure CsvRow where
  date : String
  day : String
  tasks : String
  deriving DecidableEq, Repr

/-- `TaskScheduler.export_to_csv`: the data rows it writes, one per key of
`self.schedule` in ascending date order, with `', '.join` of the task list. -/
def export_to_csv (sch : TaskScheduler) : List CsvRow :=
  let sorted_dates := List.insertionSort (· ≤ ·) (sch.schedule.map (·.1))
  sorted_dates.map fun d =>
    { date := isoFormat d
      day := dayNames.getD (weekday d) ""
      tasks := String.intercalate ", " (listAt sch.schedule d) }

/-- The scheduler's operations (reads carry their arguments too, so that a
trace of calls is a list of `Op`). -/
inductive Op where
  | addTask (name : String) (intervals : List Int) (start : Date)
  | addTaskWithReps (name : String) (interval : Int) (reps : Nat) (start : Date)
  | genSchedule (today : Date) (days : Int)
  | getTasks (date : Date)
  | exportCsv
  deriving DecidableEq, Repr

/-- The state after one operation.  `get_tasks_for_date` reads with
`dict.get` and `export_to_csv` only reads existing keys, so neither mutates
the scheduler. -/
def applyOp (sch : TaskScheduler) : Op → TaskScheduler
  | .addTask n L s => add_task sch n L s
  | .addTaskWithReps n k r s => add_task_with_repetitions sch n k r s
  | .genSchedule t d => generate_schedule sch t d
  | .getTasks _ => sch
  | .exportCsv => sch

/-- The state reached from a fresh `TaskScheduler()` by a sequence of calls. -/
def runOps (ops : List Op) : TaskScheduler :=
  ops.foldl applyOp emptyScheduler

/-- Schedule-index invariant: no date key maps to an empty task list. -/
def NonemptyVals (sch : TaskScheduler) : Prop :=
  ∀ p ∈ sch.schedule, p.2 ≠ []

/-- The §3 spec invariant: every index entry is derivable as
`start_date + offset` from the task's current definition in the task map. -/
def Derivable (sch : TaskScheduler) : Prop :=
  ∀ date nm, nm ∈ listAt sch.schedule date →
    ∃ info, dictGet? sch.tasks nm = some info ∧
      ∃ i ∈ info.intervals, info.start_date + i = date

/-! ### Lemmas about the association-list operations -/

theorem listAt_scheduleAppend (s : List (Date × List String)) (d : Date) (nm : String)
    (date : Date) :
    listAt (scheduleAppend s d nm) date =
      if d = date then listAt s date ++ [nm] else listAt s date := by
  induction s with
  | nil =>
    by_cases h : d = date <;> simp [scheduleAppend, listAt, h]
  | cons p rest ih =>
    obtain ⟨k, v⟩ := p
    rw [scheduleAppend]
    by_cases hk : k = d
    · subst hk
      by_cases hd : k = date <;> simp [listAt, hd]
    · rw [if_neg hk, listAt, listAt, ih]
      by_cases hkd : k = date
      · have hnd : ¬ d = date := fun h => hk (h ▸ hkd)
        simp [hkd, hnd]
      · simp [hkd]

theorem listAt_scheduleAll (nm : String) (start : Date) (L : List Int)
    (s : List (Date × List String)) (date : Date) :
    listAt (scheduleAll nm start L s) date =
      listAt s date ++
        List.replicate (L.countP fun i => decide (start + i = date)) nm := by
  induction L generalizing s with
  | nil => simp [scheduleAll]
  | cons i t ih =>
    rw [scheduleAll, ih, listAt_scheduleAppend]
    by_cases h : start + i = date
    · simp [h, List.countP_cons, List.replicate_succ, List.append_assoc]
    · simp [h, List.countP_cons]

theorem mem_of_mem_listAt {s : List (Date × List String)} {date : Date} {x : String}
    (h : x ∈ listAt s date) : ∃ p ∈ s, x ∈ p.2 := by
  induction s with
  | nil => simp [listAt] at h
  | cons p rest ih =>
    obtain ⟨k, v⟩ := p
    rw [listAt] at h
    by_cases hk : k = date
    · rw [if_pos hk] at h
      exact ⟨(k, v), List.mem_cons_self _ _, h⟩
    · rw [if_neg hk] at h
      obtain ⟨q, hq, hx⟩ := ih h
      exact ⟨q, List.mem_cons_of_mem _ hq, hx⟩

theorem listAt_eq_nil {s : List (Date × List String)} {date : Date}
    (h : ∀ p ∈ s, p.1 ≠ date) : listAt s date = [] := by
  induction s with
  | nil => rfl
  | cons p rest ih =>
    obtain ⟨k, v⟩ := p
    rw [listAt, if_neg (h (k, v) (List.mem_cons_self _ _))]
    exact ih fun q hq => h q (List.mem_cons_of_mem _ hq)

theorem listAt_of_mem_nodup {s : List (Date × List String)} {date : Date}
    {v : List String} (hnd : (s.map (·.1)).Nodup) (hm : (date, v) ∈ s) :
    listAt s date = v := by
  induction s with
  | nil => simp at hm
  | cons p rest ih =>
    obtain ⟨k, w⟩ := p
    simp only [List.map_cons, List.nodup_cons] at hnd
    rcases List.mem_cons.mp hm with heq | hmem
    · simp only [Prod.mk.injEq] at heq
      obtain ⟨rfl, rfl⟩ := heq
      rw [listAt, if_pos rfl]
    · have hne : k ≠ date := by
        intro he
        exact hnd.1 (he ▸ List.mem_map.mpr ⟨(date, v), hmem, rfl⟩)
      rw [listAt, if_neg hne]
      exact ih hnd.2 hmem

theorem dictGet?_dictSet_self (t : List (String × TaskInfo)) (k : String)
    (v : TaskInfo) : dictGet? (dictSet t k v) k = some v := by
  induction t with
  | nil => simp [dictSet, dictGet?]
  | cons p rest ih =>
    obtain ⟨k', v'⟩ := p
    by_cases h : k' = k
    · simp [dictSet, h, dictGet?]
    · simp [dictSet, h, dictGet?, ih]

theorem dictGet?_of_mem_nodup {t : List (String × TaskInfo)} {k : String}
    {v : TaskInfo} (hnd : (t.map (·.1)).Nodup) (hm : (k, v) ∈ t) :
    dictGet? t k = some v := by
  induction t with
  | nil => simp at hm
  | cons p rest ih =>
    obtain ⟨k', v'⟩ := p
    simp only [List.map_cons, List.nodup_cons] at hnd
    rcases List.mem_cons.mp hm with heq | hmem
    · simp only [Prod.mk.injEq] at heq
      obtain ⟨rfl, rfl⟩ := heq
      rw [dictGet?, if_pos rfl]
    · have hne : k' ≠ k := by
        intro he
        exact hnd.1 (he ▸ List.mem_map.mpr ⟨(k, v), hmem, rfl⟩)
      rw [dictGet?, if_neg hne]
      exact ih hnd.2 hmem

theorem repIntervals_eq (n : Nat) (cur k : Int) :
    repIntervals n cur k = (List.range n).map fun i : Nat => cur + (i : Int) * k := by
  induction n generalizing cur with
  | zero => simp [repIntervals]
  | succ m ih =>
    rw [repIntervals, ih, List.range_succ_eq_map, List.map_cons, List.map_map]
    refine congrArg₂ List.cons (by simp) ?_
    refine List.map_congr_left fun i _ => ?_
    simp only [Function.comp_apply, Nat.cast_succ]
    ring

/-! ### Lemmas about `generate_schedule`'s loops -/

theorem listAt_scheduleAllIn (nm : String) (start a b : Date) (L : List Int)
    (s : List (Date × List String)) (date : Date) :
    listAt (scheduleAllIn nm start a b L s) date =
      listAt s date ++
        List.replicate
          (L.countP fun i => decide (start + i = date ∧ a ≤ date ∧ date ≤ b)) nm := by
  induction L generalizing s with
  | nil => simp [scheduleAllIn]
  | cons i t ih =>
    rw [scheduleAllIn]
    by_cases hw : a ≤ start + i ∧ start + i ≤ b
    · rw [if_pos hw, ih, listAt_scheduleAppend]
      by_cases h : start + i = date
      · subst h
        simp [List.countP_cons, hw, List.replicate_succ, List.append_assoc]
      · have hp : ¬ (start + i = date ∧ a ≤ date ∧ date ≤ b) := fun hc => h hc.1
        simp [h, List.countP_cons, hp]
    · rw [if_neg hw, ih]
      have hp : ¬ (start + i = date ∧ a ≤ date ∧ date ≤ b) := by
        rintro ⟨he, h1, h2⟩
        exact hw ⟨he ▸ h1, he ▸ h2⟩
      simp [List.countP_cons, hp]

theorem mem_listAt_genLoop (a b : Date) (ts : List (String × TaskInfo))
    (s : List (Date × List String)) (nm : String) (date : Date) :
    nm ∈ listAt (genLoop a b ts s) date ↔
      nm ∈ listAt s date ∨
        ∃ info, (nm, info) ∈ ts ∧ ∃ i ∈ info.intervals,
          info.start_date + i = date ∧ a ≤ date ∧ date ≤ b := by
  induction ts generalizing s with
  | nil => simp [genLoop]
  | cons p rest ih =>
    obtain ⟨name, info⟩ := p
    rw [genLoop, ih]
    constructor
    · rintro (hm | hm)
      · rw [listAt_scheduleAllIn] at hm
        rcases List.mem_append.mp hm with hm | hm
        · exact Or.inl hm
        · rw [List.mem_replicate] at hm
          obtain ⟨hc, rfl⟩ := hm
          have hpos : 0 < info.intervals.countP fun i =>
              decide (info.start_date + i = date ∧ a ≤ date ∧ date ≤ b) :=
            Nat.pos_of_ne_zero hc
          rw [List.countP_pos_iff] at hpos
          obtain ⟨i, hi, hpi⟩ := hpos
          simp only [decide_eq_true_eq] at hpi
          exact Or.inr ⟨info, List.mem_cons_self _ _, i, hi, hpi⟩
      · obtain ⟨info', hmem, hrest⟩ := hm
        exact Or.inr ⟨info', List.mem_cons_of_mem _ hmem, hrest⟩
    · rintro (hm | ⟨info', hmem, i, hi, he, h1, h2⟩)
      · left
        rw [listAt_scheduleAllIn]
        exact List.mem_append_left _ hm
      · rcases List.mem_cons.mp hmem with heq | hmem'
        · simp only [Prod.mk.injEq] at heq
          obtain ⟨rfl, rfl⟩ := heq
          left
          rw [listAt_scheduleAllIn]
          apply List.mem_append_right
          rw [List.mem_replicate]
          refine ⟨?_, rfl⟩
          have hpos : 0 < info'.intervals.countP fun j =>
              decide (info'.start_date + j = date ∧ a ≤ date ∧ date ≤ b) := by
            rw [List.countP_pos_iff]
            exact ⟨i, hi, by simp [he, h1, h2]⟩
          omega
        · exact Or.inr ⟨info', hmem', i, hi, he, h1, h2⟩

theorem key_of_mem_scheduleAppend {s : List (Date × List String)} {d : Date}
    {nm : String} {p : Date × List String} (h : p ∈ scheduleAppend s d nm) :
    p.1 = d ∨ ∃ q ∈ s, p.1 = q.1 := by
  induction s with
  | nil =>
    rw [scheduleAppend, List.mem_singleton] at h
    exact Or.inl (by rw [h])
  | cons q rest ih =>
    obtain ⟨k, v⟩ := q
    rw [scheduleAppend] at h
    by_cases hk : k = d
    · rw [if_pos hk] at h
      rcases List.mem_cons.mp h with rfl | hm
      · exact Or.inl hk
      · exact Or.inr ⟨p, List.mem_cons_of_mem _ hm, rfl⟩
    · rw [if_neg hk] at h
      rcases List.mem_cons.mp h with rfl | hm
      · exact Or.inr ⟨(k, v), List.mem_cons_self _ _, rfl⟩
      · rcases ih hm with h1 | ⟨q', hq', he⟩
        · exact Or.inl h1
        · exact Or.inr ⟨q', List.mem_cons_of_mem _ hq', he⟩

theorem window_scheduleAllIn {a b : Date} (nm : String) (start : Date) (L : List Int)
    {s : List (Date × List String)} (hs : ∀ p ∈ s, a ≤ p.1 ∧ p.1 ≤ b) :
    ∀ p ∈ scheduleAllIn nm start a b L s, a ≤ p.1 ∧ p.1 ≤ b := by
  induction L generalizing s with
  | nil => simpa [scheduleAllIn] using hs
  | cons i t ih =>
    rw [scheduleAllIn]
    by_cases hw : a ≤ start + i ∧ start + i ≤ b
    · rw [if_pos hw]
      apply ih
      intro p hp
      rcases key_of_mem_scheduleAppend hp with he | ⟨q, hq, he⟩
      · rw [he]; exact hw
      · rw [he]; exact hs q hq
    · rw [if_neg hw]
      exact ih hs

theorem window_genLoop {a b : Date} (ts : List (String × TaskInfo))
    {s : List (Date × List String)} (hs : ∀ p ∈ s, a ≤ p.1 ∧ p.1 ≤ b) :
    ∀ p ∈ genLoop a b ts s, a ≤ p.1 ∧ p.1 ≤ b := by
  induction ts generalizing s with
  | nil => simpa [genLoop] using hs
  | cons q rest ih =>
    obtain ⟨name, info⟩ := q
    rw [genLoop]
    exact ih (window_scheduleAllIn _ _ _ hs)

/-! ### Preservation of the no-empty-list invariant -/

theorem nonempty_scheduleAppend {s : List (Date × List String)}
    (hs : ∀ p ∈ s, p.2 ≠ []) (d : Date) (nm : String) :
    ∀ p ∈ scheduleAppend s d nm, p.2 ≠ [] := by
  induction s with
  | nil =>
    intro p hp
    rw [scheduleAppend, List.mem_singleton] at hp
    simp [hp]
  | cons q rest ih =>
    obtain ⟨k, v⟩ := q
    rw [scheduleAppend]
    by_cases hk : k = d
    · rw [if_pos hk]
      intro p hp
      rcases List.mem_cons.mp hp with rfl | hm
      · simp
      · exact hs p (List.mem_cons_of_mem _ hm)
    · rw [if_neg hk]
      intro p hp
      rcases List.mem_cons.mp hp with rfl | hm
      · exact hs _ (List.mem_cons_self _ _)
      · exact ih (fun q hq => hs q (List.mem_cons_of_mem _ hq)) p hm

theorem nonempty_scheduleAll (nm : String) (start : Date) (L : List Int)
    {s : List (Date × List String)} (hs : ∀ p ∈ s, p.2 ≠ []) :
    ∀ p ∈ scheduleAll nm start L s, p.2 ≠ [] := by
  induction L generalizing s with
  | nil => simpa [scheduleAll] using hs
  | cons i t ih =>
    rw [scheduleAll]
    exact ih (nonempty_scheduleAppend hs _ _)

theorem nonempty_scheduleAllIn (nm : String) (start a b : Date) (L : List Int)
    {s : List (Date × List String)} (hs : ∀ p ∈ s, p.2 ≠ []) :
    ∀ p ∈ scheduleAllIn nm start a b L s, p.2 ≠ [] := by
  induction L generalizing s with
  | nil => simpa [scheduleAllIn] using hs
  | cons i t ih =>
    rw [scheduleAllIn]
    by_cases hw : a ≤ start + i ∧ start + i ≤ b
    · rw [if_pos hw]
      exact ih (nonempty_scheduleAppend hs _ _)
    · rw [if_neg hw]
      exact ih hs

theorem nonempty_genLoop (a b : Date) (ts : List (String × TaskInfo))
    {s : List (Date × List String)} (hs : ∀ p ∈ s, p.2 ≠ []) :
    ∀ p ∈ genLoop a b ts s, p.2 ≠ [] := by
  induction ts generalizing s with
  | nil => simpa [genLoop] using hs
  | cons q rest ih =>
    obtain ⟨name, info⟩ := q
    rw [genLoop]
    exact ih (nonempty_scheduleAllIn _ _ _ _ _ hs)

theorem nonempty_applyOp {sch : TaskScheduler} (h : NonemptyVals sch) (op : Op) :
    NonemptyVals (applyOp sch op) := by
  cases op with
  | addTask n L s => exact nonempty_scheduleAll n s L h
  | addTaskWithReps n k r s => exact nonempty_scheduleAll n s _ h
  | genSchedule t d => exact nonempty_genLoop t (t + d) sch.tasks (by simp)
  | getTasks d => exact h
  | exportCsv => exact h

/-! ### The claim theorems -/

/-- C1: after `add_task(name, L, start_date)` on a scheduler whose index has
no entry naming this task, `get_tasks_for_date(start_date + d)` contains
`name` for every `d` in `L`, and `name` is absent from every date not of the
form `start_date + d` with `d ∈ L`. -/
theorem add_task_schedules_exactly_offset_dates (sch : TaskScheduler)
    (name : String) (L : List Int) (start : Date)
    (h : ∀ p ∈ sch.schedule, name ∉ p.2) :
    (∀ d ∈ L, name ∈ get_tasks_for_date (add_task sch name L start) (start + d)) ∧
    ∀ date, (∀ d ∈ L, date ≠ start + d) →
      name ∉ get_tasks_for_date (add_task sch name L start) date := by
  have hnot : ∀ date : Date, name ∉ listAt sch.schedule date := by
    intro date hmem
    obtain ⟨p, hp, hx⟩ := mem_of_mem_listAt hmem
    exact h p hp hx
  constructor
  · intro d hd
    show name ∈ listAt (scheduleAll name start L sch.schedule) (start + d)
    rw [listAt_scheduleAll]
    apply List.mem_append_right
    rw [List.mem_replicate]
    refine ⟨?_, rfl⟩
    have hpos : 0 < L.countP fun i => decide (start + i = start + d) := by
      rw [List.countP_pos_iff]
      exact ⟨d, hd, by simp⟩
    omega
  · intro date hdate hmem
    have hmem' : name ∈ listAt (scheduleAll name start L sch.schedule) date := hmem
    rw [listAt_scheduleAll] at hmem'
    rcases List.mem_append.mp hmem' with hm | hm
    · exact hnot date hm
    · rw [List.mem_replicate] at hm
      refine hm.1 ?_
      rw [List.countP_eq_zero]
      intro i hi
      simp only [decide_eq_true_eq]
      intro he
      exact hdate i hi he.symm

/-- Witness for C1 at the §8 scenario: `add_task("ChapterA", [1,3,7],
2024-01-01)` on a fresh scheduler puts `ChapterA` on 2024-01-04 and not on
2024-01-10. -/
theorem add_task_schedules_exactly_offset_dates_witness :
    "ChapterA" ∈ get_tasks_for_date
      (add_task emptyScheduler "ChapterA" [1, 3, 7] 738886) (738886 + 3) ∧
    "ChapterA" ∉ get_tasks_for_date
      (add_task emptyScheduler "ChapterA" [1, 3, 7] 738886) 738895 :=
  ⟨(add_task_schedules_exactly_offset_dates emptyScheduler "ChapterA" [1, 3, 7]
      738886 (by simp [emptyScheduler])).1 3 (by simp),
   (add_task_schedules_exactly_offset_dates emptyScheduler "ChapterA" [1, 3, 7]
      738886 (by simp [emptyScheduler])).2 738895 (by decide)⟩

/-- C2: `add_task_with_repetitions(name, k, n, start)` leaves the scheduler in
exactly the state of `add_task(name, [0, k, 2k, ..., (n-1)k], start)`. -/
theorem add_task_with_repetitions_eq_add_task (sch : TaskScheduler)
    (name : String) (k : Int) (n : Nat) (start : Date) :
    add_task_with_repetitions sch name k n start =
      add_task sch name ((List.range n).map fun i : Nat => (i : Int) * k) start := by
  have hL : repIntervals n 0 k = (List.range n).map fun i : Nat => (i : Int) * k := by
    rw [repIntervals_eq]
    exact List.map_congr_left fun i _ => zero_add _
  rw [add_task_with_repetitions, hL]

/-- C3: after `generate_schedule(days=D)` at current date `today`, every date
key lies in the inclusive window `[today, today + D]`, and (the index having
been rebuilt from scratch) a task name appears on a date exactly when some
stored task derives that date, inside the window, from its interval list. -/
theorem generate_schedule_window_and_contents (sch : TaskScheduler)
    (today : Date) (D : Int) :
    (∀ p ∈ (generate_schedule sch today D).schedule,
      today ≤ p.1 ∧ p.1 ≤ today + D) ∧
    ∀ nm date,
      nm ∈ get_tasks_for_date (generate_schedule sch today D) date ↔
        ∃ info, (nm, info) ∈ sch.tasks ∧ ∃ i ∈ info.intervals,
          info.start_date + i = date ∧ today ≤ date ∧ date ≤ today + D := by
  constructor
  · exact window_genLoop _ (by simp)
  · intro nm date
    show nm ∈ listAt (genLoop today (today + D) sch.tasks []) date ↔ _
    rw [mem_listAt_genLoop]
    simp [listAt]

/-- Witness for C3: a task with offsets `[0, 5, 100]` survives regeneration
over a 90-day window only inside the window. -/
theorem generate_schedule_window_and_contents_witness :
    "A" ∈ get_tasks_for_date
      (generate_schedule (add_task emptyScheduler "A" [0, 5, 100] 738886)
        738886 90) (738886 + 5) :=
  (generate_schedule_window_and_contents
      (add_task emptyScheduler "A" [0, 5, 100] 738886) 738886 90).2 "A"
      (738886 + 5) |>.mpr
    ⟨⟨[0, 5, 100], 738886⟩, by decide, 5, by decide, by decide, by decide, by decide⟩

/-- C4 counterexample: after `add_task("A", [1], d)` then `add_task("A", [2],
d)`, the index entry `(d + 1, "A")` is not derivable from `"A"`'s current
definition (intervals `[2]`), so the derivability invariant fails at this
point of this operation sequence. -/
theorem stale_entry_not_derivable_after_readd :
    ¬ Derivable (runOps [Op.addTask "A" [1] 738886, Op.addTask "A" [2] 738886]) := by
  intro h
  obtain ⟨info, hget, i, hi, he⟩ := h 738887 "A" (by decide)
  have h2 : dictGet? (runOps [Op.addTask "A" [1] 738886,
      Op.addTask "A" [2] 738886]).tasks "A" = some ⟨[2], 738886⟩ := by decide
  rw [hget] at h2
  have hinfo := Option.some.inj h2
  subst hinfo
  simp only [List.mem_singleton] at hi
  subst hi
  simp at he

/-- C4 amended: the derivability invariant holds right after any
`generate_schedule` (with distinct task names); it is not preserved by
re-adding an existing task name with a different definition, as the stale
entries of the old definition stay in the index until the next regenerate. -/
theorem generate_schedule_restores_derivability (sch : TaskScheduler)
    (today : Date) (D : Int) (h : (sch.tasks.map (·.1)).Nodup) :
    Derivable (generate_schedule sch today D) := by
  intro date nm hm
  have hmm := (mem_listAt_genLoop today (today + D) sch.tasks [] nm date).mp hm
  rcases hmm with hm0 | ⟨info, hmem, i, hi, he, _, _⟩
  · simp [listAt] at hm0
  · exact ⟨info, dictGet?_of_mem_nodup h hmem, i, hi, he⟩

/-- Witness for the amended C4 at a concrete one-task scheduler. -/
theorem generate_schedule_restores_derivability_witness :
    Derivable (generate_schedule (add_task emptyScheduler "A" [1] 738886)
      738886 90) :=
  generate_schedule_restores_derivability
    (add_task emptyScheduler "A" [1] 738886) 738886 90 (by decide)

/-- C5: re-adding an existing task name overwrites its stored definition in
the task map, while for every date the previously indexed entries remain (the
new schedule list extends the old one). -/
theorem readd_overwrites_definition_keeps_index (sch : TaskScheduler)
    (name : String) (L : List Int) (start : Date)
    (_h : ∃ info, dictGet? sch.tasks name = some info) :
    dictGet? (add_task sch name L start).tasks name = some ⟨L, start⟩ ∧
    ∀ date, ∃ extra, get_tasks_for_date (add_task sch name L start) date =
      get_tasks_for_date sch date ++ extra := by
  refine ⟨dictGet?_dictSet_self _ _ _, fun date => ?_⟩
  exact ⟨_, listAt_scheduleAll name start L sch.schedule date⟩

/-- Witness for C5: re-adding `"A"` with intervals `[2]` overwrites the map
entry while the old index entry at `start + 1` persists. -/
theorem readd_overwrites_definition_keeps_index_witness :
    dictGet? (add_task (add_task emptyScheduler "A" [1] 738886) "A" [2]
      738886).tasks "A" = some ⟨[2], 738886⟩ ∧
    ∃ extra, get_tasks_for_date (add_task (add_task emptyScheduler "A" [1]
      738886) "A" [2] 738886) 738887 =
        get_tasks_for_date (add_task emptyScheduler "A" [1] 738886) 738887 ++ extra :=
  ⟨(readd_overwrites_definition_keeps_index (add_task emptyScheduler "A" [1]
      738886) "A" [2] 738886 ⟨⟨[1], 738886⟩, rfl⟩).1,
   (readd_overwrites_definition_keeps_index (add_task emptyScheduler "A" [1]
      738886) "A" [2] 738886 ⟨⟨[1], 738886⟩, rfl⟩).2 738887⟩

/-- C6: `generate_schedule` is idempotent: run twice with the same current
date and day count and no call in between, the second run leaves the whole
scheduler (tasks and index) exactly as the first did. -/
theorem generate_schedule_idempotent (sch : TaskScheduler) (today : Date)
    (D : Int) :
    generate_schedule (generate_schedule sch today D) today D =
      generate_schedule sch today D := rfl

/-- C7: `get_tasks_for_date` mutates nothing, returns the list indexed under
the queried date (the unique one when date keys are distinct), and returns
`[]`, not an error, when the date has no entry. -/
theorem get_tasks_for_date_read_only (sch : TaskScheduler) (date : Date) :
    applyOp sch (Op.getTasks date) = sch ∧
    ((∀ p ∈ sch.schedule, p.1 ≠ date) → get_tasks_for_date sch date = []) ∧
    ∀ v, (sch.schedule.map (·.1)).Nodup → (date, v) ∈ sch.schedule →
      get_tasks_for_date sch date = v := by
  refine ⟨rfl, fun h => listAt_eq_nil h, fun v hnd hm => listAt_of_mem_nodup hnd hm⟩

/-- Witness for C7: on a one-entry index, an unknown date yields `[]` and the
known date yields its list. -/
theorem get_tasks_for_date_read_only_witness :
    get_tasks_for_date (add_task emptyScheduler "A" [0] 738886) 999 = [] ∧
    get_tasks_for_date (add_task emptyScheduler "A" [0] 738886) 738886 = ["A"] :=
  ⟨(get_tasks_for_date_read_only (add_task emptyScheduler "A" [0] 738886)
      999).2.1 (by decide),
   (get_tasks_for_date_read_only (add_task emptyScheduler "A" [0] 738886)
      738886).2.2 ["A"] (by decide) (by decide)⟩

/-- C8: the exported rows are exactly the dates carrying at least one task, in
ascending date order, each row holding the ISO `YYYY-MM-DD` date, the full
English weekday name, and the date's task names joined by `", "` in index
order; exporting leaves the scheduler unchanged. -/
theorem export_rows_sorted_enumerate_index (sch : TaskScheduler)
    (h : ∀ p ∈ sch.schedule, p.2 ≠ []) :
    ∃ ds : List Date,
      List.Sorted (· ≤ ·) ds ∧
      ds.Perm ((sch.schedule.filter fun p => !p.2.isEmpty).map (·.1)) ∧
      export_to_csv sch = ds.map (fun d =>
        { date := isoFormat d
          day := dayNames.getD (weekday d) ""
          tasks := String.intercalate ", " (listAt sch.schedule d) }) ∧
      applyOp sch Op.exportCsv = sch := by
  refine ⟨List.insertionSort (· ≤ ·) (sch.schedule.map (·.1)),
    List.sorted_insertionSort _ _, ?_, ?_, rfl⟩
  · have hf : sch.schedule.filter (fun p => !p.2.isEmpty) = sch.schedule := by
      apply List.filter_eq_self.mpr
      intro p hp
      simpa using h p hp
    rw [hf]
    exact List.perm_insertionSort _ _
  · rfl

/-- Witness for C8 on offsets `[3, 1]` of 2024-01-01 (rows come out in date
order even though the index was built in offset order). -/
theorem export_rows_sorted_enumerate_index_witness :
    ∃ ds : List Date,
      List.Sorted (· ≤ ·) ds ∧
      ds.Perm (((add_task emptyScheduler "ChapterA" [3, 1] 738886).schedule.filter
        fun p => !p.2.isEmpty).map (·.1)) ∧
      export_to_csv (add_task emptyScheduler "ChapterA" [3, 1] 738886) =
        ds.map (fun d =>
          { date := isoFormat d
            day := dayNames.getD (weekday d) ""
            tasks := String.intercalate ", "
              (listAt (add_task emptyScheduler "ChapterA" [3, 1] 738886).schedule d) }) ∧
      applyOp (add_task emptyScheduler "ChapterA" [3, 1] 738886) Op.exportCsv =
        add_task emptyScheduler "ChapterA" [3, 1] 738886 :=
  export_rows_sorted_enumerate_index
    (add_task emptyScheduler "ChapterA" [3, 1] 738886) (by decide)

/-- C9: `add_task_with_repetitions` with a repetition count of 0 stores an
empty interval list and adds nothing to the schedule index: the index is
unchanged, so no date gains `name`. -/
theorem zero_repetitions_schedule_nothing (sch : TaskScheduler) (name : String)
    (k : Int) (start : Date) :
    repIntervals 0 0 k = [] ∧
    (add_task_with_repetitions sch name k 0 start).schedule = sch.schedule ∧
    ∀ date, name ∈ get_tasks_for_date (add_task_with_repetitions sch name k 0
      start) date → name ∈ get_tasks_for_date sch date := by
  exact ⟨rfl, rfl, fun date hm => hm⟩

/-- Witness for C9: zero repetitions of `"X"` leave a one-task index without
`"X"` anywhere it was not before. -/
theorem zero_repetitions_schedule_nothing_witness :
    (add_task_with_repetitions (add_task emptyScheduler "A" [0] 738886) "X" 7 0
      738886).schedule = (add_task emptyScheduler "A" [0] 738886).schedule :=
  (zero_repetitions_schedule_nothing (add_task emptyScheduler "A" [0] 738886)
    "X" 7 738886).2.1

/-- C10 (implicit): along every operation sequence from a fresh scheduler,
every date key of the schedule index carries a nonempty task list — the
defaultdict only ever creates a key by immediately appending a name to it. -/
theorem schedule_lists_never_empty (ops : List Op) : NonemptyVals (runOps ops) := by
  have main : ∀ (l : List Op) (sch : TaskScheduler), NonemptyVals sch →
      NonemptyVals (l.foldl applyOp sch) := by
    intro l
    induction l with
    | nil => exact fun sch h => h
    | cons op rest ih => exact fun sch h => ih _ (nonempty_applyOp h op)
  refine main ops emptyScheduler ?_
  intro p hp
  simp [emptyScheduler] at hp

/-- Witness for C10 on a mixed trace of all five operations. -/
theorem schedule_lists_never_empty_witness :
    NonemptyVals (runOps [Op.addTask "A" [1, 3] 738886,
      Op.addTaskWithReps "B" 7 3 738886, Op.getTasks 738887,
      Op.genSchedule 738886 90, Op.exportCsv]) :=
  schedule_lists_never_empty [Op.addTask "A" [1, 3] 738886,
    Op.addTaskWithReps "B" 7 3 738886, Op.getTasks 738887,
    Op.genSchedule 738886 90, Op.exportCsv]

end Sched
